import Mathlib

/-!
Shallow embedding of the 100-prisoners simulation (`BoxSim.py`).

The Python source is embedded as follows:
* Python exceptions are modelled with `Except Err`; a raised exception
  propagates as `.error`, and since the embedding is pure, an error return
  carries no mutated state (the caller's `Room` value is untouched).
* Python `int` is modelled as `ℤ`; a value of another Python type passed to
  `Box.__init__` is modelled by the `PyVal` sum.
* `np.random.shuffle` in `Room.__init__` is modelled by the predicate
  `Room.constructed`: a constructed room is an arbitrary permutation of the
  fresh boxes `1..100`.  `np.random.choice` in the random strategy is
  modelled by an explicit chooser function.
* Python list indexing `boxes[index-1]` (including negative-index wraparound
  and the `IndexError` it raises out of range) is modelled by `pyNat`.
* A strategy (the bound method stored in `PrisonerStrategy.strat`) is a
  function `Room → ℤ → Except Err (ℤ × Room)`.
-/

set_option maxRecDepth 4000

/-- A Python value passed to `Box.__init__`: an `int`, or something of another
type (`float`, `str`). -/
inductive PyVal where
  | intV (z : ℤ)
  | floatV (q : ℚ)
  | strV (s : String)
deriving DecidableEq

/-- The exceptions of `BoxSim.py`: `ValueError` from `Box.__init__`,
`BoxAlreadyOpened` from `Room.open_box` (carrying the number `index - 1`
shown in its message), and Python's builtin `IndexError` from a list access
out of range. -/
inductive Err where
  | invalidValue
  | alreadyOpened (shownIndex : ℤ)
  | indexError
deriving DecidableEq

/-- `Box`: one hidden ticket value and an open/closed flag. -/
structure Box where
  value : ℤ
  opened : Bool
deriving DecidableEq

/-- `Box.__init__`: raises `ValueError` when the argument is not an `int`;
otherwise stores the value with `opened = False`. -/
def Box.construct : PyVal → Except Err Box
  | .intV z => .ok { value := z, opened := false }
  | _ => .error .invalidValue

/-- `Box.open_box`: sets `opened` and returns the ticket value.  The pure
embedding returns the value together with the updated box. -/
def Box.open_box (b : Box) : ℤ × Box :=
  (b.value, { b with opened := true })

/-- `Box.reseal_box`: clears the `opened` flag. -/
def Box.reseal_box (b : Box) : Box :=
  { b with opened := false }

/-- `Room`: the list of boxes (`self.boxes`). -/
structure Room where
  boxes : List Box
deriving DecidableEq

/-- The boxes `Room.__init__` creates before shuffling: values `1..100`,
all closed. -/
def initialBoxes : List Box :=
  (List.range' 1 100).map (fun n : ℕ => { value := (n : ℤ), opened := false })

/-- `Room.__init__` builds `initialBoxes` and then applies
`np.random.shuffle`; a constructed room is therefore exactly a permutation
of `initialBoxes`. -/
def Room.constructed (r : Room) : Prop :=
  r.boxes.Perm initialBoxes

/-- `Room.close_boxes`: reseals every box. -/
def Room.close_boxes (r : Room) : Room :=
  ⟨r.boxes.map Box.reseal_box⟩

/-- `Room.count_boxes_opened`: the number of boxes with `opened = True`. -/
def Room.count_boxes_opened (r : Room) : ℕ :=
  (r.boxes.filter (fun b => b.opened)).length

/-- `Room.get_unopened_boxes`: `zip(np.arange(1, 101), self.boxes)` filtered
on `box.opened is False`, keeping the 1-based indices. -/
def Room.get_unopened_boxes (r : Room) : List ℤ :=
  ((((List.range' 1 100).map (fun n : ℕ => (n : ℤ))).zip r.boxes).filter
    (fun p => !p.2.opened)).map Prod.fst

/-- Python list indexing on a list of length `n`: a nonnegative position is
used directly, a negative position wraps from the end, anything else raises
`IndexError` (modelled by `none`). -/
def pyNat (n : ℕ) (i : ℤ) : Option ℕ :=
  if 0 ≤ i ∧ i < (n : ℤ) then some i.toNat
  else if -(n : ℤ) ≤ i ∧ i < 0 then some (i + n).toNat
  else none

/-- The box stored at 1-based index `i` (used to state properties; the
source accesses `self.boxes[index-1]`). -/
def Room.boxAt (r : Room) (i : ℤ) : Option Box :=
  r.boxes[(i - 1).toNat]?

/-- The ticket value at 1-based index `i`, with `0` for a missing index. -/
def Room.valueAt (r : Room) (i : ℤ) : ℤ :=
  match r.boxAt i with
  | some b => b.value
  | none => 0

/-- `Room.open_box`: accesses `self.boxes[index-1]` with Python indexing,
raises `BoxAlreadyOpened` (its message shows `index - 1`) when the box is
open, and otherwise opens the box and returns its value.  The second
`IndexError` branch is unreachable because `pyNat` only returns positions
inside the list. -/
def Room.open_box (r : Room) (index : ℤ) : Except Err (ℤ × Room) :=
  match pyNat r.boxes.length (index - 1) with
  | none => .error .indexError
  | some j =>
    match r.boxes[j]? with
    | none => .error .indexError
    | some b =>
      if b.opened then .error (.alreadyOpened (index - 1))
      else .ok ((Box.open_box b).1, ⟨r.boxes.set j (Box.open_box b).2⟩)

/-- A prisoner strategy: the function stored in `PrisonerStrategy.strat`,
taking the room and the current value, returning the revealed value and the
updated room (or an exception). -/
def Strategy : Type :=
  Room → ℤ → Except Err (ℤ × Room)

/-- `PrisonerStrategy.follower_strategy`: open the box whose index is the
current value. -/
def follower_strategy : Strategy :=
  fun room current_value => room.open_box current_value

/-- `PrisonerStrategy.random_strategy`, with `np.random.choice` modelled by
an explicit chooser over the list of unopened indices. -/
def random_strategy (choose : List ℤ → ℤ) : Strategy :=
  fun room _ => room.open_box (choose room.get_unopened_boxes)

/-- The loop body of `World.run_single_prisoner_instance`: `fuel` remaining
iterations of the `for _ in range(50)` loop, current value, current room. -/
def run_prisoner_aux (strat : Strategy) (pn : ℤ) : ℕ → ℤ → Room → Except Err (Bool × Room)
  | 0, _, room => .ok (false, room)
  | fuel + 1, current, room =>
    match strat room current with
    | .error e => .error e
    | .ok (uncovered, room') =>
      if uncovered = pn then .ok (true, room')
      else run_prisoner_aux strat pn fuel uncovered room'

/-- `World.run_single_prisoner_instance`: starts from
`current_value = prisoner_number` and runs the 50-iteration loop. -/
def run_single_prisoner_instance (strat : Strategy) (room : Room) (pn : ℤ) :
    Except Err (Bool × Room) :=
  run_prisoner_aux strat pn 50 pn room

/-- The loop of `World.run_single_strategy_instance` over the remaining
prisoner numbers: a failed trial returns `False` at once, a successful one
reseals all boxes before the next prisoner. -/
def run_strategy_aux (strat : Strategy) : List ℤ → Room → Except Err (Bool × Room)
  | [], room => .ok (true, room)
  | pn :: rest, room =>
    match run_single_prisoner_instance strat room pn with
    | .error e => .error e
    | .ok (false, room') => .ok (false, room')
    | .ok (true, room') => run_strategy_aux strat rest room'.close_boxes

/-- `World.run_single_strategy_instance`: prisoners `np.arange(1, 101)` in
ascending order against the shared room. -/
def run_single_strategy_instance (strat : Strategy) (room : Room) :
    Except Err (Bool × Room) :=
  run_strategy_aux strat ((List.range' 1 100).map (fun n : ℕ => (n : ℤ))) room

/-- The sampling loop of `monte_carlo_test`: at loop iteration `i` (with `k`
iterations remaining) `world.reset()` installs the fresh room `rooms (i+1)`
(`rooms 0` is the room made by `World.__init__` and discarded by the first
reset), one episode runs on it, and its boolean outcome is recorded. -/
def mc_results (strat : Strategy) (rooms : ℕ → Room) : ℕ → ℕ → Except Err (List Bool)
  | _, 0 => .ok []
  | i, k + 1 =>
    match run_single_strategy_instance strat (rooms (i + 1)) with
    | .error e => .error e
    | .ok (b, _) => (mc_results strat rooms (i + 1) k).map (fun rest => b :: rest)

/-- The list of episode outcomes collected by `monte_carlo_test`. -/
def monte_carlo_results (strat : Strategy) (rooms : ℕ → Room) (num_samples : ℕ) :
    Except Err (List Bool) :=
  mc_results strat rooms 0 num_samples

/-- `monte_carlo_test`: `np.sum(results) / len(results)`, the fraction of
successful episodes. -/
def monte_carlo_test (strat : Strategy) (rooms : ℕ → Room) (num_samples : ℕ) :
    Except Err ℚ :=
  (monte_carlo_results strat rooms num_samples).map
    (fun results => ((results.count true : ℚ)) / (results.length : ℚ))

/-- The room whose shuffle happens to be the identity permutation (used as a
concrete instance). -/
def identityRoom : Room :=
  ⟨initialBoxes⟩

/-- `identityRoom` with box 5 already opened (a concrete instance for the
already-open error case). -/
def openedRoom : Room :=
  ⟨initialBoxes.set 4 { value := 5, opened := true }⟩

/-- A degenerate strategy that reveals the current value without touching the
room: every trial succeeds on the first call (a concrete instance). -/
def echoStrategy : Strategy :=
  fun room current => .ok (current, room)

/-- A degenerate strategy that always reveals `0` without touching the room:
every trial of a prisoner `1..100` exhausts its 50 attempts and fails
(a concrete instance). -/
def zeroStrategy : Strategy :=
  fun room _ => .ok (0, room)

/-! ### Basic facts about the embedded definitions -/

theorem pyNat_inbounds (n : ℕ) (i : ℤ) (h0 : 0 ≤ i) (h1 : i < (n : ℤ)) :
    pyNat n i = some i.toNat := by
  simp [pyNat, h0, h1]

theorem pyNat_lt (n : ℕ) (i : ℤ) (j : ℕ) (h : pyNat n i = some j) : j < n := by
  unfold pyNat at h
  by_cases h1 : 0 ≤ i ∧ i < (n : ℤ)
  · rw [if_pos h1] at h
    cases h
    omega
  · rw [if_neg h1] at h
    by_cases h2 : -(n : ℤ) ≤ i ∧ i < 0
    · rw [if_pos h2] at h
      cases h
      omega
    · rw [if_neg h2] at h
      cases h

theorem initialBoxes_length : initialBoxes.length = 100 := by
  unfold initialBoxes
  rw [List.length_map, List.length_range']

theorem initialBoxes_map_value :
    initialBoxes.map Box.value = (List.range' 1 100).map (fun n : ℕ => (n : ℤ)) := by
  unfold initialBoxes
  rw [List.map_map]
  rfl

theorem initialBoxes_all_closed : ∀ b ∈ initialBoxes, b.opened = false := by
  intro b hb
  simp only [initialBoxes, List.mem_map] at hb
  obtain ⟨n, -, rfl⟩ := hb
  rfl

theorem Room.length_of_constructed {r : Room} (h : r.constructed) :
    r.boxes.length = 100 := by
  rw [h.length_eq, initialBoxes_length]

theorem open_box_opened_eq (r : Room) (i : ℤ) (b : Box)
    (h1 : 1 ≤ i) (h2 : i ≤ (r.boxes.length : ℤ))
    (hb : r.boxAt i = some b) (hop : b.opened = true) :
    r.open_box i = .error (.alreadyOpened (i - 1)) := by
  have h0 : (0 : ℤ) ≤ i - 1 := by omega
  have hlt : i - 1 < (r.boxes.length : ℤ) := by omega
  simp only [Room.boxAt] at hb
  simp only [Room.open_box, pyNat_inbounds _ _ h0 hlt, hb, hop, if_true]

theorem open_box_closed_eq (r : Room) (i : ℤ) (b : Box)
    (h1 : 1 ≤ i) (h2 : i ≤ (r.boxes.length : ℤ))
    (hb : r.boxAt i = some b) (hcl : b.opened = false) :
    r.open_box i = .ok (b.value, ⟨r.boxes.set (i - 1).toNat { b with opened := true }⟩) := by
  have h0 : (0 : ℤ) ≤ i - 1 := by omega
  have hlt : i - 1 < (r.boxes.length : ℤ) := by omega
  simp only [Room.boxAt] at hb
  simp only [Room.open_box, pyNat_inbounds _ _ h0 hlt, hb, hcl, Box.open_box,
    Bool.false_eq_true, if_false]

theorem open_box_ok_inv (r : Room) (i v : ℤ) (r' : Room)
    (h : r.open_box i = .ok (v, r')) :
    ∃ (j : ℕ) (b : Box), j < r.boxes.length ∧ r.boxes[j]? = some b ∧ b.opened = false ∧
      v = b.value ∧ r' = ⟨r.boxes.set j { b with opened := true }⟩ := by
  unfold Room.open_box at h
  cases hp : pyNat r.boxes.length (i - 1) with
  | none => rw [hp] at h; cases h
  | some j =>
    simp only [hp] at h
    cases hg : r.boxes[j]? with
    | none => simp only [hg] at h; cases h
    | some b =>
      simp only [hg] at h
      by_cases hop : b.opened
      · rw [if_pos hop] at h; cases h
      · rw [if_neg hop] at h
        simp only [Box.open_box, Except.ok.injEq, Prod.mk.injEq] at h
        exact ⟨j, b, pyNat_lt _ _ _ hp, hg, by simpa using hop, h.1.symm, h.2.symm⟩

theorem set_getElem?_self {α : Type} (l : List α) (j : ℕ) (a : α) (h : l[j]? = some a) :
    l.set j a = l := by
  induction l generalizing j with
  | nil => simp at h
  | cons x xs ih =>
    cases j with
    | zero =>
      simp only [List.getElem?_cons_zero, Option.some.injEq] at h
      rw [← h]
      rfl
    | succ j =>
      simp only [List.getElem?_cons_succ] at h
      show x :: xs.set j a = x :: xs
      rw [ih j h]

theorem map_value_set (l : List Box) (j : ℕ) (b : Box) (hg : l[j]? = some b) :
    (l.set j { b with opened := true }).map Box.value = l.map Box.value := by
  rw [List.map_set]
  apply set_getElem?_self
  rw [List.getElem?_map, hg]
  rfl

theorem filter_opened_set (l : List Box) (j : ℕ) (b : Box)
    (hg : l[j]? = some b) (hcl : b.opened = false) :
    ((l.set j { b with opened := true }).filter (fun x => x.opened)).length
      = (l.filter (fun x => x.opened)).length + 1 := by
  induction l generalizing j with
  | nil => simp at hg
  | cons x xs ih =>
    cases j with
    | zero =>
      simp only [List.getElem?_cons_zero, Option.some.injEq] at hg
      subst hg
      simp [List.filter_cons, hcl]
    | succ j =>
      simp only [List.getElem?_cons_succ] at hg
      show ((x :: xs.set j { b with opened := true }).filter (fun x => x.opened)).length = _
      by_cases hx : x.opened
      · simp [List.filter_cons, hx, ih j hg]
      · simp [List.filter_cons, hx, ih j hg]

theorem count_boxes_opened_close (r : Room) : r.close_boxes.count_boxes_opened = 0 := by
  show ((r.boxes.map Box.reseal_box).filter (fun b => b.opened)).length = 0
  rw [List.filter_map]
  have : ((fun b : Box => b.opened) ∘ Box.reseal_box) = fun _ : Box => false := by
    funext b
    rfl
  rw [this]
  simp

theorem map_value_close (r : Room) :
    r.close_boxes.boxes.map Box.value = r.boxes.map Box.value := by
  show (r.boxes.map Box.reseal_box).map Box.value = _
  rw [List.map_map]
  rfl

theorem zip_filter_map_fst_sublist (A : List ℤ) (l : List Box) :
    (((A.zip l).filter (fun p => !p.2.opened)).map Prod.fst).Sublist A := by
  induction A generalizing l with
  | nil => simp
  | cons a A ih =>
    cases l with
    | nil => simp
    | cons c cs =>
      rw [List.zip_cons_cons, List.filter_cons]
      by_cases hc : c.opened
      · simp only [hc, Bool.not_true, Bool.false_eq_true, if_false]
        exact (ih cs).cons a
      · simp only [Bool.not_eq_true] at hc
        simp only [hc, Bool.not_false, if_true, List.map_cons]
        exact (ih cs).cons₂ a

theorem mem_zip_filter_map_fst (A : List ℤ) (l : List Box) (x : ℤ) :
    x ∈ ((A.zip l).filter (fun p => !p.2.opened)).map Prod.fst
      ↔ ∃ (j : ℕ) (b : Box), A[j]? = some x ∧ l[j]? = some b ∧ b.opened = false := by
  induction A generalizing l with
  | nil => simp
  | cons a A ih =>
    cases l with
    | nil => simp
    | cons c cs =>
      rw [List.zip_cons_cons, List.filter_cons]
      constructor
      · intro hx
        by_cases hc : c.opened
        · simp only [hc, Bool.not_true, Bool.false_eq_true, if_false] at hx
          obtain ⟨j, b, h1, h2, h3⟩ := (ih cs).mp hx
          exact ⟨j + 1, b, by simpa using h1, by simpa using h2, h3⟩
        · simp only [Bool.not_eq_true] at hc
          simp only [hc, Bool.not_false, if_true, List.map_cons, List.mem_cons] at hx
          cases hx with
          | inl hx => exact ⟨0, c, by simp [hx], by simp, hc⟩
          | inr hx =>
            obtain ⟨j, b, h1, h2, h3⟩ := (ih cs).mp hx
            exact ⟨j + 1, b, by simpa using h1, by simpa using h2, h3⟩
      · rintro ⟨j, b, h1, h2, h3⟩
        cases j with
        | zero =>
          simp only [List.getElem?_cons_zero, Option.some.injEq] at h1 h2
          subst h1
          subst h2
          simp [h3]
        | succ j =>
          simp only [List.getElem?_cons_succ] at h1 h2
          have hrec := (ih cs).mpr ⟨j, b, h1, h2, h3⟩
          by_cases hc : c.opened
          · simpa [hc] using hrec
          · simp only [Bool.not_eq_true] at hc
            simp only [hc, Bool.not_false, if_true, List.map_cons, List.mem_cons]
            exact Or.inr hrec

/-! ### The follower strategy on a permutation room -/

theorem iterate_mem_Icc (f : ℤ → ℤ)
    (hmaps : ∀ i, 1 ≤ i → i ≤ 100 → 1 ≤ f i ∧ f i ≤ 100) :
    ∀ (k : ℕ) (x : ℤ), 1 ≤ x → x ≤ 100 → 1 ≤ f^[k] x ∧ f^[k] x ≤ 100 := by
  intro k
  induction k with
  | zero => intro x hx1 hx2; simpa using ⟨hx1, hx2⟩
  | succ k ih =>
    intro x hx1 hx2
    rw [Function.iterate_succ_apply]
    exact ih (f x) (hmaps x hx1 hx2).1 (hmaps x hx1 hx2).2

theorem iterate_cancel (f : ℤ → ℤ)
    (hmaps : ∀ i, 1 ≤ i → i ≤ 100 → 1 ≤ f i ∧ f i ≤ 100)
    (hinj : ∀ i j, 1 ≤ i → i ≤ 100 → 1 ≤ j → j ≤ 100 → f i = f j → i = j) :
    ∀ (k : ℕ) (x y : ℤ), 1 ≤ x → x ≤ 100 → 1 ≤ y → y ≤ 100 →
      f^[k] x = f^[k] y → x = y := by
  intro k
  induction k with
  | zero => intro x y _ _ _ _ h; simpa using h
  | succ k ih =>
    intro x y hx1 hx2 hy1 hy2 h
    rw [Function.iterate_succ_apply, Function.iterate_succ_apply] at h
    have hfx := hmaps x hx1 hx2
    have hfy := hmaps y hy1 hy2
    exact hinj x y hx1 hx2 hy1 hy2 (ih (f x) (f y) hfx.1 hfx.2 hfy.1 hfy.2 h)

theorem follower_aux_ok (f : ℤ → ℤ) (pn : ℤ)
    (hmaps : ∀ i, 1 ≤ i → i ≤ 100 → 1 ≤ f i ∧ f i ≤ 100)
    (hinj : ∀ i j, 1 ≤ i → i ≤ 100 → 1 ≤ j → j ≤ 100 → f i = f j → i = j)
    (hpn1 : 1 ≤ pn) (hpn2 : pn ≤ 100) :
    ∀ (fuel j : ℕ) (r : Room),
      r.boxes.length = 100 →
      (∀ i, 1 ≤ i → i ≤ 100 →
        ∃ b, r.boxAt i = some b ∧ b.value = f i ∧
          (b.opened = true ↔ ∃ a, a < j ∧ f^[a] pn = i)) →
      (∀ a, 1 ≤ a → a ≤ j → f^[a] pn ≠ pn) →
      ∃ out, run_prisoner_aux follower_strategy pn fuel (f^[j] pn) r = .ok out := by
  intro fuel
  induction fuel with
  | zero => intro j r _ _ _; exact ⟨(false, r), rfl⟩
  | succ fuel ih =>
    intro j r hlen hinv hns
    have hcur := iterate_mem_Icc f hmaps j pn hpn1 hpn2
    obtain ⟨b, hb, hbv, hbo⟩ := hinv (f^[j] pn) hcur.1 hcur.2
    have hclosed : b.opened = false := by
      rw [Bool.eq_false_iff]
      intro hop
      obtain ⟨a, haj, ha⟩ := hbo.mp hop
      have hsplit : a + (j - a) = j := by omega
      have hiter : f^[a] (f^[j - a] pn) = f^[j] pn := by
        rw [← Function.iterate_add_apply, hsplit]
      have hmem := iterate_mem_Icc f hmaps (j - a) pn hpn1 hpn2
      have hfix : pn = f^[j - a] pn :=
        iterate_cancel f hmaps hinj a pn (f^[j - a] pn) hpn1 hpn2 hmem.1 hmem.2
          (ha.trans hiter.symm)
      exact hns (j - a) (by omega) (by omega) hfix.symm
    have hstep : follower_strategy r (f^[j] pn) =
        .ok (b.value, ⟨r.boxes.set ((f^[j] pn) - 1).toNat { b with opened := true }⟩) :=
      open_box_closed_eq r (f^[j] pn) b hcur.1 (by omega) hb hclosed
    by_cases hsucc : b.value = pn
    · refine ⟨(true, ⟨r.boxes.set ((f^[j] pn) - 1).toNat { b with opened := true }⟩), ?_⟩
      simp only [run_prisoner_aux, hstep, hsucc]
      simp
    · have hfv : b.value = f^[j + 1] pn := by
        rw [hbv]
        exact (Function.iterate_succ_apply' f j pn).symm
      have hnext :
          ∃ out, run_prisoner_aux follower_strategy pn fuel (f^[j + 1] pn)
            (⟨r.boxes.set ((f^[j] pn) - 1).toNat { b with opened := true }⟩ : Room) = .ok out := by
        apply ih (j + 1)
        · rw [List.length_set, hlen]
        · intro i hi1 hi2
          by_cases hieq : i = f^[j] pn
          · refine ⟨{ b with opened := true }, ?_, by rw [hieq]; exact hbv, ?_⟩
            · show (r.boxes.set ((f^[j] pn) - 1).toNat
                { b with opened := true })[(i - 1).toNat]? = some { b with opened := true }
              rw [hieq, List.getElem?_set, if_pos rfl,
                if_pos (by rw [hlen]; omega : ((f^[j] pn) - 1).toNat < r.boxes.length)]
            · constructor
              · intro _
                exact ⟨j, by omega, hieq.symm⟩
              · intro _
                rfl
          · obtain ⟨bi, hbi, hbiv, hbio⟩ := hinv i hi1 hi2
            refine ⟨bi, ?_, hbiv, ?_⟩
            · show (r.boxes.set (((f^[j] pn) - 1).toNat)
                { b with opened := true })[(i - 1).toNat]? = some bi
              rw [List.getElem?_set, if_neg]
              · exact hbi
              · intro hcontra
                apply hieq
                omega
            · rw [hbio]
              constructor
              · rintro ⟨a, ha, haeq⟩
                exact ⟨a, by omega, haeq⟩
              · rintro ⟨a, ha, haeq⟩
                refine ⟨a, ?_, haeq⟩
                rcases Nat.lt_succ_iff_lt_or_eq.mp ha with h | h
                · exact h
                · exfalso
                  apply hieq
                  rw [← haeq, h]
        · intro a ha1 ha2
          rcases Nat.le_succ_iff.mp ha2 with h | h
          · exact hns a ha1 h
          · rw [h, ← hfv]
            exact hsucc
      have hsucc' : ¬(f^[j + 1] pn = pn) := by
        rw [← hfv]
        exact hsucc
      obtain ⟨out, hout⟩ := hnext
      rw [hfv] at hout
      refine ⟨out, ?_⟩
      simp only [run_prisoner_aux, hstep, hfv, if_neg hsucc']
      exact hout

theorem constructed_values_perm {r : Room} (h : r.constructed) :
    (r.boxes.map Box.value).Perm ((List.range' 1 100).map (fun n : ℕ => (n : ℤ))) := by
  have hp := h.map Box.value
  rwa [initialBoxes_map_value] at hp

theorem constructed_boxAt {r : Room} (h : r.constructed) (i : ℤ)
    (h1 : 1 ≤ i) (h2 : i ≤ 100) : ∃ b, r.boxAt i = some b := by
  have hlen := Room.length_of_constructed h
  have hlt : (i - 1).toNat < r.boxes.length := by omega
  exact ⟨r.boxes[(i - 1).toNat], by simp [Room.boxAt, List.getElem?_eq_getElem hlt]⟩

theorem boxAt_valueAt {r : Room} {i : ℤ} {b : Box} (hb : r.boxAt i = some b) :
    r.valueAt i = b.value := by
  simp [Room.valueAt, hb]

theorem valueAt_mem {r : Room} (h : r.constructed) (i : ℤ)
    (h1 : 1 ≤ i) (h2 : i ≤ 100) : 1 ≤ r.valueAt i ∧ r.valueAt i ≤ 100 := by
  obtain ⟨b, hb⟩ := constructed_boxAt h i h1 h2
  have hbmem : b ∈ r.boxes := List.getElem?_mem hb
  have hv : b.value ∈ r.boxes.map Box.value := List.mem_map_of_mem _ hbmem
  rw [(constructed_values_perm h).mem_iff] at hv
  simp only [List.mem_map] at hv
  obtain ⟨n, hn, hveq⟩ := hv
  rw [List.mem_range'_1] at hn
  rw [boxAt_valueAt hb]
  omega

theorem valueAt_inj {r : Room} (h : r.constructed) (i j : ℤ)
    (hi1 : 1 ≤ i) (hi2 : i ≤ 100) (hj1 : 1 ≤ j) (hj2 : j ≤ 100)
    (heq : r.valueAt i = r.valueAt j) : i = j := by
  have hlen := Room.length_of_constructed h
  obtain ⟨bi, hbi⟩ := constructed_boxAt h i hi1 hi2
  obtain ⟨bj, hbj⟩ := constructed_boxAt h j hj1 hj2
  have hnd : (r.boxes.map Box.value).Nodup := by
    rw [(constructed_values_perm h).nodup_iff]
    exact (List.nodup_range' 1 100).map (fun a b hab => by exact_mod_cast hab)
  have hmi : (r.boxes.map Box.value)[(i - 1).toNat]? = some (r.valueAt i) := by
    rw [List.getElem?_map, (show r.boxes[(i - 1).toNat]? = some bi from hbi),
      boxAt_valueAt hbi]
    rfl
  have hmj : (r.boxes.map Box.value)[(j - 1).toNat]? = some (r.valueAt j) := by
    rw [List.getElem?_map, (show r.boxes[(j - 1).toNat]? = some bj from hbj),
      boxAt_valueAt hbj]
    rfl
  have hlti : (i - 1).toNat < (r.boxes.map Box.value).length := by
    rw [List.length_map]
    omega
  have htn : (i - 1).toNat = (j - 1).toNat := by
    apply List.getElem?_inj hlti hnd
    rw [hmi, hmj, heq]
  omega

theorem constructed_all_closed {r : Room} (h : r.constructed) :
    ∀ b ∈ r.boxes, b.opened = false := by
  intro b hb
  exact initialBoxes_all_closed b (h.mem_iff.mp hb)

/-- C5: for every Room holding a permutation of the values 1..100 with all
boxes resealed (exactly the constructed rooms) and every prisoner number in
1..100, a trial with the Follower strategy raises no exception at all — in
particular never `BoxAlreadyOpened` — because the indices it follows are the
distinct elements of a cycle of the permutation, closed before any index
repeats; the trial returns an ordinary boolean outcome. -/
theorem follower_trial_no_exception (r : Room) (pn : ℤ)
    (hr : r.constructed) (h1 : 1 ≤ pn) (h2 : pn ≤ 100) :
    ∃ out, run_single_prisoner_instance follower_strategy r pn = .ok out := by
  have hlen := Room.length_of_constructed hr
  have happ := follower_aux_ok r.valueAt pn
    (fun i hi1 hi2 => valueAt_mem hr i hi1 hi2)
    (fun i j hi1 hi2 hj1 hj2 => valueAt_inj hr i j hi1 hi2 hj1 hj2)
    h1 h2 50 0 r hlen ?_ ?_
  · simpa [run_single_prisoner_instance] using happ
  · intro i hi1 hi2
    obtain ⟨b, hb⟩ := constructed_boxAt hr i hi1 hi2
    refine ⟨b, hb, (boxAt_valueAt hb).symm, ?_⟩
    constructor
    · intro hop
      have hcl := constructed_all_closed hr b (List.getElem?_mem hb)
      rw [hcl] at hop
      cases hop
    · rintro ⟨a, ha, -⟩
      exact absurd ha (Nat.not_lt_zero a)
  · intro a ha1 ha2
    exact absurd (ha1.trans ha2) (by omega)

/-- Witness for C5: the follower trial on the identity-permutation room for
prisoner 1 returns without an exception. -/
theorem follower_trial_no_exception_witness :
    identityRoom.constructed ∧ (1 : ℤ) ≤ 1 ∧ (1 : ℤ) ≤ 100 ∧
      ∃ out, run_single_prisoner_instance follower_strategy identityRoom 1 = .ok out :=
  ⟨List.Perm.refl _, by norm_num, by norm_num,
    follower_trial_no_exception identityRoom 1 (List.Perm.refl _) (by norm_num) (by norm_num)⟩

/-! ### Characterization of `get_unopened_boxes` -/

theorem get_unopened_sorted (r : Room) : r.get_unopened_boxes.Sorted (· < ·) := by
  have hsub := zip_filter_map_fst_sublist
    ((List.range' 1 100).map (fun n : ℕ => (n : ℤ))) r.boxes
  have hsorted : (((List.range' 1 100).map (fun n : ℕ => (n : ℤ)))).Sorted (· < ·) :=
    List.Pairwise.map _ (fun a b hab => by exact_mod_cast hab)
      (List.pairwise_lt_range' 1 100)
  exact List.Pairwise.sublist hsub hsorted

theorem mem_get_unopened (r : Room) (_hlen : r.boxes.length = 100) (x : ℤ) :
    x ∈ r.get_unopened_boxes ↔
      ∃ b, 1 ≤ x ∧ x ≤ 100 ∧ r.boxAt x = some b ∧ b.opened = false := by
  unfold Room.get_unopened_boxes
  rw [mem_zip_filter_map_fst]
  constructor
  · rintro ⟨j, b, hA, hl, hbo⟩
    rw [List.getElem?_map] at hA
    by_cases hj : j < 100
    · rw [List.getElem?_range' 1 1 hj] at hA
      simp only [Option.map_some', Option.some.injEq] at hA
      refine ⟨b, by omega, by omega, ?_, hbo⟩
      show r.boxes[(x - 1).toNat]? = some b
      have hxj : (x - 1).toNat = j := by omega
      rw [hxj]
      exact hl
    · rw [List.getElem?_eq_none (by rw [List.length_range']; omega)] at hA
      cases hA
  · rintro ⟨b, hx1, hx2, hb, hbo⟩
    refine ⟨(x - 1).toNat, b, ?_, hb, hbo⟩
    rw [List.getElem?_map, List.getElem?_range' 1 1 (by omega : (x - 1).toNat < 100)]
    simp only [Option.map_some', Option.some.injEq]
    omega

/-- C6: `Room.open_box` on an in-range index whose box is already open raises
`BoxAlreadyOpened` (the message shows `index - 1`).  In the pure embedding
the error return carries no room, so the caller's room — every box value and
every `opened` flag — is unchanged by construction. -/
theorem open_box_already_open (r : Room) (i : ℤ) (b : Box)
    (hlen : r.boxes.length = 100) (h1 : 1 ≤ i) (h2 : i ≤ 100)
    (hb : r.boxAt i = some b) (hop : b.opened = true) :
    r.open_box i = .error (.alreadyOpened (i - 1)) :=
  open_box_opened_eq r i b h1 (by omega) hb hop

/-- Witness for C6: box 5 of `openedRoom` is already open, and opening it
again raises `BoxAlreadyOpened`. -/
theorem open_box_already_open_witness :
    openedRoom.boxes.length = 100 ∧ (1 : ℤ) ≤ 5 ∧ (5 : ℤ) ≤ 100 ∧
      openedRoom.boxAt 5 = some { value := 5, opened := true } ∧
      ({ value := 5, opened := true } : Box).opened = true ∧
      openedRoom.open_box 5 = .error (.alreadyOpened 4) :=
  ⟨rfl, by norm_num, by norm_num, rfl, rfl,
    open_box_already_open openedRoom 5 { value := 5, opened := true }
      rfl (by norm_num) (by norm_num) rfl rfl⟩

/-- C8: opening an unopened in-range box returns the value stored in it,
increases `count_boxes_opened` by exactly one and removes the index from
`get_unopened_boxes`; and on every 100-box room, `get_unopened_boxes` lists
exactly the 1-based indices of the currently unopened boxes, in ascending
index order. -/
theorem open_box_fresh_spec :
    (∀ (r : Room) (i : ℤ) (b : Box), r.boxes.length = 100 → 1 ≤ i → i ≤ 100 →
      r.boxAt i = some b → b.opened = false →
      ∃ r', r.open_box i = .ok (b.value, r') ∧
        r'.count_boxes_opened = r.count_boxes_opened + 1 ∧
        i ∉ r'.get_unopened_boxes)
    ∧ (∀ r : Room, r.boxes.length = 100 →
        r.get_unopened_boxes.Sorted (· < ·) ∧
        (∀ x : ℤ, x ∈ r.get_unopened_boxes ↔
          ∃ b, 1 ≤ x ∧ x ≤ 100 ∧ r.boxAt x = some b ∧ b.opened = false)) := by
  constructor
  · intro r i b hlen h1 h2 hb hcl
    have hopen := open_box_closed_eq r i b h1 (by omega) hb hcl
    refine ⟨⟨r.boxes.set (i - 1).toNat { b with opened := true }⟩, hopen, ?_, ?_⟩
    · exact filter_opened_set r.boxes (i - 1).toNat b hb hcl
    · rw [mem_get_unopened _ (by rw [List.length_set, hlen]) i]
      rintro ⟨b', hx1, hx2, hb', hbo'⟩
      have hset : (⟨r.boxes.set (i - 1).toNat { b with opened := true }⟩ : Room).boxAt i
          = some { b with opened := true } := by
        show (r.boxes.set (i - 1).toNat { b with opened := true })[(i - 1).toNat]? = _
        rw [List.getElem?_set, if_pos rfl,
          if_pos (by rw [hlen]; omega : (i - 1).toNat < r.boxes.length)]
      rw [hset, Option.some.injEq] at hb'
      rw [← hb'] at hbo'
      cases hbo'
  · intro r hlen
    exact ⟨get_unopened_sorted r, fun x => mem_get_unopened r hlen x⟩

/-- Witness for C8: opening the closed box 1 of the identity room, and the
characterization of `get_unopened_boxes` on the identity room. -/
theorem open_box_fresh_spec_witness :
    (identityRoom.boxes.length = 100 ∧ (1 : ℤ) ≤ 1 ∧ (1 : ℤ) ≤ 100 ∧
      identityRoom.boxAt 1 = some { value := 1, opened := false } ∧
      ({ value := 1, opened := false } : Box).opened = false ∧
      ∃ r', identityRoom.open_box 1 = .ok (({ value := 1, opened := false } : Box).value, r') ∧
        r'.count_boxes_opened = identityRoom.count_boxes_opened + 1 ∧
        (1 : ℤ) ∉ r'.get_unopened_boxes)
    ∧ (identityRoom.get_unopened_boxes.Sorted (· < ·) ∧
        (∀ x : ℤ, x ∈ identityRoom.get_unopened_boxes ↔
          ∃ b, 1 ≤ x ∧ x ≤ 100 ∧ identityRoom.boxAt x = some b ∧ b.opened = false)) :=
  ⟨⟨rfl, by norm_num, by norm_num, rfl, rfl,
    open_box_fresh_spec.1 identityRoom 1 { value := 1, opened := false }
      rfl (by norm_num) (by norm_num) rfl rfl⟩,
   open_box_fresh_spec.2 identityRoom rfl⟩

/-- C3: every constructed room stores exactly the multiset of values
{1,...,100} in its 100 boxes, and the mutating room operations preserve the
stored values unchanged, toggling only `opened` flags: `close_boxes` keeps
the value list identical, and a successful `open_box` keeps the value list
identical (`count_boxes_opened` and `get_unopened_boxes` are read-only
queries by construction in the pure embedding, so they preserve it
trivially). -/
theorem room_values_invariant :
    (∀ r : Room, r.constructed →
      (↑(r.boxes.map Box.value) : Multiset ℤ)
        = ↑((List.range' 1 100).map (fun n : ℕ => (n : ℤ))))
    ∧ (∀ r : Room, r.close_boxes.boxes.map Box.value = r.boxes.map Box.value)
    ∧ (∀ (r : Room) (i v : ℤ) (r' : Room), r.open_box i = .ok (v, r') →
        r'.boxes.map Box.value = r.boxes.map Box.value) := by
  refine ⟨?_, map_value_close, ?_⟩
  · intro r hr
    rw [Multiset.coe_eq_coe]
    exact constructed_values_perm hr
  · intro r i v r' h
    obtain ⟨j, b, hj, hg, hcl, hv, hr'⟩ := open_box_ok_inv r i v r' h
    rw [hr']
    exact map_value_set r.boxes j b hg

/-- Witness for C3: the identity room is constructed and carries the values
1..100; opening box 1 preserves the value list. -/
theorem room_values_invariant_witness :
    (identityRoom.constructed ∧
      (↑(identityRoom.boxes.map Box.value) : Multiset ℤ)
        = ↑((List.range' 1 100).map (fun n : ℕ => (n : ℤ))))
    ∧ (identityRoom.open_box 1
        = .ok (1, ⟨initialBoxes.set 0 { value := 1, opened := true }⟩) ∧
      (⟨initialBoxes.set 0 { value := 1, opened := true }⟩ : Room).boxes.map Box.value
        = identityRoom.boxes.map Box.value) :=
  ⟨⟨List.Perm.refl _, room_values_invariant.1 identityRoom (List.Perm.refl _)⟩,
   ⟨rfl, room_values_invariant.2.2 identityRoom 1 1
      ⟨initialBoxes.set 0 { value := 1, opened := true }⟩ rfl⟩⟩

/-- C9 counterexample: `Box(-5)` — the argument is an integer, so
construction succeeds and stores `-5`, which is not a positive integer; the
claim's "stores the given value, which is a positive integer" fails on the
code (the source checks only the type, never positivity). -/
theorem box_construct_counterexample :
    Box.construct (.intV (-5)) = .ok { value := -5, opened := false }
      ∧ ¬(0 < ({ value := -5, opened := false } : Box).value) :=
  ⟨rfl, by norm_num⟩

/-- C9 amended: Box construction fails with `ValueError` exactly when the
given value is not an integer; on success the new Box has `opened = false`
and stores the given integer value (not necessarily positive), which is
never changed by `open_box` or `reseal_box`. -/
theorem box_construct_amended :
    (∀ z : ℤ, Box.construct (.intV z) = .ok { value := z, opened := false })
    ∧ (∀ v : PyVal, (∀ z : ℤ, v ≠ .intV z) → Box.construct v = .error .invalidValue)
    ∧ (∀ (v : PyVal) (b : Box), Box.construct v = .ok b →
        ∃ z : ℤ, v = .intV z ∧ b = { value := z, opened := false })
    ∧ (∀ b : Box, (Box.open_box b).2.value = b.value ∧ (Box.reseal_box b).value = b.value) := by
  refine ⟨fun z => rfl, ?_, ?_, fun b => ⟨rfl, rfl⟩⟩
  · intro v hv
    cases v with
    | intV z => exact absurd rfl (hv z)
    | floatV q => rfl
    | strV s => rfl
  · intro v b h
    cases v with
    | intV z =>
      refine ⟨z, rfl, ?_⟩
      cases h
      rfl
    | floatV q => cases h
    | strV s => cases h

/-- Witness for C9 (amended): a non-integer argument is rejected and an
integer argument is stored unchanged. -/
theorem box_construct_amended_witness :
    ((∀ z : ℤ, PyVal.strV "x" ≠ .intV z) ∧
      Box.construct (.strV "x") = .error .invalidValue)
    ∧ (Box.construct (.intV 7) = .ok { value := 7, opened := false } ∧
      ∃ z : ℤ, PyVal.intV 7 = .intV z ∧
        ({ value := 7, opened := false } : Box) = { value := z, opened := false }) :=
  ⟨⟨fun _ h => PyVal.noConfusion h,
    box_construct_amended.2.1 (.strV "x") (fun _ h => PyVal.noConfusion h)⟩,
   ⟨rfl, box_construct_amended.2.2.1 (.intV 7) { value := 7, opened := false } rfl⟩⟩

/-- C7 (evaluating the code at the failing inputs): the source has no
`IndexOutOfRange` guard at all.  `Room.open(0)` on a fresh room reaches
Python's negative indexing `boxes[-1]`, succeeds, and opens box 100
returning its value; `Room.open(101)` raises Python's builtin `IndexError`,
not a distinct `IndexOutOfRange` error. -/
theorem open_box_out_of_range_behaviour :
    identityRoom.open_box 0
      = .ok (100, ⟨initialBoxes.set 99 { value := 100, opened := true }⟩)
    ∧ identityRoom.open_box 101 = .error .indexError :=
  ⟨rfl, rfl⟩

/-! ### The Trial against the spec wording (C1) -/

/-- One attempt of a Trial exactly as the spec (section 4.4) words it: once
the prisoner has succeeded nothing further happens; otherwise one strategy
call is made, succeeding exactly when it reveals the prisoner's number and
otherwise feeding the revealed value back as the next current value.
Transcribed from the spec for comparison against the source. -/
def specStep (strat : Strategy) (pn : ℤ) (st : Bool × ℤ × Room) :
    Except Err (Bool × ℤ × Room) :=
  match st with
  | (true, cur, room) => .ok (true, cur, room)
  | (false, cur, room) =>
    match strat room cur with
    | .error e => .error e
    | .ok (revealed, room') =>
      if revealed = pn then .ok (true, revealed, room')
      else .ok (false, revealed, room')

/-- The Trial as the spec words it: initialize `current = prisoner_number`,
repeat the attempt up to 50 times, and report success or failure.
Transcribed from the spec for comparison against the source. -/
def specTrial (strat : Strategy) (pn : ℤ) (room : Room) : Except Err (Bool × Room) :=
  ((List.replicate 50 ()).foldlM (fun st _ => specStep strat pn st)
    ((false, pn, room) : Bool × ℤ × Room)).map (fun st => (st.1, st.2.2))

theorem specStep_foldlM_done (strat : Strategy) (pn : ℤ) :
    ∀ (l : List Unit) (cur : ℤ) (room : Room),
      l.foldlM (fun st _ => specStep strat pn st) ((true, cur, room) : Bool × ℤ × Room)
        = .ok (true, cur, room) := by
  intro l
  induction l with
  | nil => intro cur room; rfl
  | cons u l ih =>
    intro cur room
    rw [List.foldlM_cons]
    exact ih cur room

theorem run_prisoner_aux_eq_spec (strat : Strategy) (pn : ℤ) :
    ∀ (n : ℕ) (cur : ℤ) (room : Room),
      run_prisoner_aux strat pn n cur room
        = ((List.replicate n ()).foldlM (fun st _ => specStep strat pn st)
            ((false, cur, room) : Bool × ℤ × Room)).map (fun st => (st.1, st.2.2)) := by
  intro n
  induction n with
  | zero => intro cur room; rfl
  | succ n ih =>
    intro cur room
    rw [List.replicate_succ]
    have hcons : ((() :: List.replicate n ()).foldlM (fun st _ => specStep strat pn st)
        ((false, cur, room) : Bool × ℤ × Room))
        = specStep strat pn (false, cur, room) >>= fun st =>
            (List.replicate n ()).foldlM (fun st _ => specStep strat pn st) st := by
      rw [List.foldlM_cons]
    rw [hcons]
    cases hs : strat room cur with
    | error e =>
      have h1 : run_prisoner_aux strat pn (n + 1) cur room = .error e := by
        simp only [run_prisoner_aux, hs]
      have h2 : specStep strat pn (false, cur, room) = .error e := by
        simp only [specStep, hs]
      rw [h1, h2]
      rfl
    | ok vr =>
      obtain ⟨v, room'⟩ := vr
      have h2 : specStep strat pn (false, cur, room)
          = if v = pn then .ok (true, v, room') else .ok (false, v, room') := by
        simp only [specStep, hs]
      by_cases hv : v = pn
      · have h1 : run_prisoner_aux strat pn (n + 1) cur room = .ok (true, room') := by
          simp only [run_prisoner_aux, hs, if_pos hv]
        rw [h1, h2, if_pos hv]
        show _ = Except.map _ ((List.replicate n ()).foldlM
          (fun st _ => specStep strat pn st) ((true, v, room') : Bool × ℤ × Room))
        rw [specStep_foldlM_done]
        rfl
      · have h1 : run_prisoner_aux strat pn (n + 1) cur room
            = run_prisoner_aux strat pn n v room' := by
          simp only [run_prisoner_aux, hs, if_neg hv]
        rw [h1, h2, if_neg hv, ih v room']
        rfl

/-- Call-count instrumentation of the trial loop of
`run_single_prisoner_instance`: alongside the result, the number of
strategy calls actually made. -/
def run_prisoner_counting (strat : Strategy) (pn : ℤ) :
    ℕ → ℤ → Room → (Except Err (Bool × Room)) × ℕ
  | 0, _, room => (.ok (false, room), 0)
  | fuel + 1, current, room =>
    match strat room current with
    | .error e => (.error e, 1)
    | .ok (uncovered, room') =>
      if uncovered = pn then (.ok (true, room'), 1)
      else
        ((run_prisoner_counting strat pn fuel uncovered room').1,
          (run_prisoner_counting strat pn fuel uncovered room').2 + 1)

theorem run_prisoner_counting_fst (strat : Strategy) (pn : ℤ) :
    ∀ (n : ℕ) (cur : ℤ) (room : Room),
      (run_prisoner_counting strat pn n cur room).1
        = run_prisoner_aux strat pn n cur room := by
  intro n
  induction n with
  | zero => intro cur room; rfl
  | succ n ih =>
    intro cur room
    cases hs : strat room cur with
    | error e => simp only [run_prisoner_counting, run_prisoner_aux, hs]
    | ok vr =>
      obtain ⟨v, room'⟩ := vr
      by_cases hv : v = pn
      · simp only [run_prisoner_counting, run_prisoner_aux, hs, if_pos hv]
      · simp only [run_prisoner_counting, run_prisoner_aux, hs, if_neg hv]
        exact ih v room'

theorem run_prisoner_counting_le (strat : Strategy) (pn : ℤ) :
    ∀ (n : ℕ) (cur : ℤ) (room : Room),
      (run_prisoner_counting strat pn n cur room).2 ≤ n := by
  intro n
  induction n with
  | zero => intro cur room; exact Nat.le_refl 0
  | succ n ih =>
    intro cur room
    cases hs : strat room cur with
    | error e =>
      simp only [run_prisoner_counting, hs]
      omega
    | ok vr =>
      obtain ⟨v, room'⟩ := vr
      by_cases hv : v = pn
      · simp only [run_prisoner_counting, hs, if_pos hv]
        omega
      · simp only [run_prisoner_counting, hs, if_neg hv]
        have := ih v room'
        omega

/-- C1: for every strategy, prisoner number and room state, the source's
Trial (`run_single_prisoner_instance`) computes exactly what the spec
describes — initialize `current = prisoner_number`, call the strategy up to
50 times, return success immediately on revealing `prisoner_number`,
otherwise feed the revealed value back, and fail when the 50 attempts are
exhausted (`specTrial`) — and the instrumented loop shows it makes at most
50 strategy calls. -/
theorem run_single_prisoner_spec :
    ∀ (strat : Strategy) (pn : ℤ) (room : Room),
      run_single_prisoner_instance strat room pn = specTrial strat pn room
      ∧ (run_prisoner_counting strat pn 50 pn room).1
          = run_single_prisoner_instance strat room pn
      ∧ (run_prisoner_counting strat pn 50 pn room).2 ≤ 50 :=
  fun strat pn room =>
    ⟨run_prisoner_aux_eq_spec strat pn 50 pn room,
     run_prisoner_counting_fst strat pn 50 pn room,
     run_prisoner_counting_le strat pn 50 pn room⟩

/-! ### The Episode against the spec wording (C2, C10) -/

/-- One prisoner of an Episode exactly as the spec (section 4.5) words it:
once some Trial has failed nothing further happens (short-circuit);
otherwise the prisoner's Trial runs, a failure is recorded at once, and a
success reseals all boxes before the next prisoner.  Transcribed from the
spec for comparison against the source. -/
def specEpisodeStep (strat : Strategy) (st : Bool × Room) (pn : ℕ) :
    Except Err (Bool × Room) :=
  match st with
  | (false, room) => .ok (false, room)
  | (true, room) =>
    match run_single_prisoner_instance strat room (pn : ℤ) with
    | .error e => .error e
    | .ok (false, room') => .ok (false, room')
    | .ok (true, room') => .ok (true, room'.close_boxes)

/-- The Episode as the spec words it: for prisoner numbers 1..100 in
ascending order, run a Trial, short-circuit on the first failure, reseal the
boxes between successes, and succeed only if all 100 Trials succeed.
Transcribed from the spec for comparison against the source. -/
def specEpisode (strat : Strategy) (room : Room) : Except Err (Bool × Room) :=
  (List.range' 1 100).foldlM (specEpisodeStep strat) (true, room)

theorem specEpisodeStep_foldlM_failed (strat : Strategy) :
    ∀ (l : List ℕ) (room : Room),
      l.foldlM (specEpisodeStep strat) ((false, room) : Bool × Room)
        = .ok (false, room) := by
  intro l
  induction l with
  | nil => intro room; rfl
  | cons pn l ih =>
    intro room
    rw [List.foldlM_cons]
    exact ih room

theorem run_strategy_aux_eq_spec (strat : Strategy) :
    ∀ (l : List ℕ) (room : Room),
      run_strategy_aux strat (l.map (fun n : ℕ => (n : ℤ))) room
        = l.foldlM (specEpisodeStep strat) (true, room) := by
  intro l
  induction l with
  | nil => intro room; rfl
  | cons pn l ih =>
    intro room
    rw [List.map_cons, List.foldlM_cons]
    cases hs : run_single_prisoner_instance strat room (pn : ℤ) with
    | error e =>
      have h1 : run_strategy_aux strat ((pn : ℤ) :: l.map (fun n : ℕ => (n : ℤ))) room
          = .error e := by
        simp only [run_strategy_aux, hs]
      have h2 : specEpisodeStep strat (true, room) pn = .error e := by
        simp only [specEpisodeStep, hs]
      rw [h1, h2]
      rfl
    | ok br =>
      obtain ⟨b, room'⟩ := br
      cases b with
      | false =>
        have h1 : run_strategy_aux strat ((pn : ℤ) :: l.map (fun n : ℕ => (n : ℤ))) room
            = .ok (false, room') := by
          simp only [run_strategy_aux, hs]
        have h2 : specEpisodeStep strat (true, room) pn = .ok (false, room') := by
          simp only [specEpisodeStep, hs]
        rw [h1, h2]
        exact (specEpisodeStep_foldlM_failed strat l room').symm
      | true =>
        have h1 : run_strategy_aux strat ((pn : ℤ) :: l.map (fun n : ℕ => (n : ℤ))) room
            = run_strategy_aux strat (l.map (fun n : ℕ => (n : ℤ))) room'.close_boxes := by
          simp only [run_strategy_aux, hs]
        have h2 : specEpisodeStep strat (true, room) pn = .ok (true, room'.close_boxes) := by
          simp only [specEpisodeStep, hs]
        rw [h1, h2, ih room'.close_boxes]
        rfl

/-- C2: the source's Episode (`run_single_strategy_instance`) computes
exactly what the spec describes — one Trial per prisoner number 1..100 in
ascending order on the shared room, short-circuiting and succeeding if and
only if every Trial succeeds (`specEpisode`) — and the two step equations
make the loop behaviour explicit: a failing Trial returns failure at once
(the remaining prisoner list is discarded unrun), a successful Trial
reseals all boxes before the next prisoner runs. -/
theorem run_single_strategy_spec :
    ∀ (strat : Strategy) (room : Room),
      run_single_strategy_instance strat room = specEpisode strat room
      ∧ (∀ (pn : ℤ) (rest : List ℤ) (r' : Room),
          run_single_prisoner_instance strat room pn = .ok (false, r') →
          run_strategy_aux strat (pn :: rest) room = .ok (false, r'))
      ∧ (∀ (pn : ℤ) (rest : List ℤ) (r' : Room),
          run_single_prisoner_instance strat room pn = .ok (true, r') →
          run_strategy_aux strat (pn :: rest) room
            = run_strategy_aux strat rest r'.close_boxes) := by
  intro strat room
  refine ⟨run_strategy_aux_eq_spec strat (List.range' 1 100) room, ?_, ?_⟩
  · intro pn rest r' h
    simp only [run_strategy_aux, h]
  · intro pn rest r' h
    simp only [run_strategy_aux, h]

/-- Witness for C2: a strategy that always reveals 0 makes prisoner 1's
trial fail and the episode loop short-circuit; a strategy that echoes the
current value makes the trial succeed and the loop reseal before moving
on. -/
theorem run_single_strategy_spec_witness :
    (run_single_prisoner_instance zeroStrategy (⟨[]⟩ : Room) 1 = .ok (false, (⟨[]⟩ : Room)) ∧
      run_strategy_aux zeroStrategy [1, 2] (⟨[]⟩ : Room) = .ok (false, (⟨[]⟩ : Room)))
    ∧ (run_single_prisoner_instance echoStrategy (⟨[]⟩ : Room) 1 = .ok (true, (⟨[]⟩ : Room)) ∧
      run_strategy_aux echoStrategy [1, 2] (⟨[]⟩ : Room)
        = run_strategy_aux echoStrategy [2] (Room.close_boxes ⟨[]⟩)) :=
  ⟨⟨rfl, (run_single_strategy_spec zeroStrategy ⟨[]⟩).2.1 1 [2] ⟨[]⟩ rfl⟩,
   ⟨rfl, (run_single_strategy_spec echoStrategy ⟨[]⟩).2.2 1 [2] ⟨[]⟩ rfl⟩⟩

theorem run_strategy_aux_true_closed (strat : Strategy) :
    ∀ (l : List ℤ) (room r' : Room), l ≠ [] →
      run_strategy_aux strat l room = .ok (true, r') →
      r'.count_boxes_opened = 0 := by
  intro l
  induction l with
  | nil => intro room r' hne; exact absurd rfl hne
  | cons pn rest ih =>
    intro room r' _ h
    cases hs : run_single_prisoner_instance strat room pn with
    | error e =>
      simp only [run_strategy_aux, hs] at h
      cases h
    | ok br =>
      obtain ⟨b, room'⟩ := br
      cases b with
      | false =>
        simp only [run_strategy_aux, hs] at h
        cases h
      | true =>
        simp only [run_strategy_aux, hs] at h
        cases rest with
        | nil =>
          simp only [run_strategy_aux] at h
          cases h
          exact count_boxes_opened_close room'
        | cons q qs =>
          exact ih room'.close_boxes r' (by simp) h

/-- C10: when an Episode returns success every box of the room it returns
is resealed (`close_boxes` also runs after the last prisoner's successful
Trial, not only between prisoners); when a prisoner's Trial fails, the
Episode returns the room exactly as that Trial left it, so the boxes the
failing prisoner opened stay open. -/
theorem episode_room_state :
    (∀ (strat : Strategy) (room r' : Room),
      run_single_strategy_instance strat room = .ok (true, r') →
      r'.count_boxes_opened = 0)
    ∧ (∀ (strat : Strategy) (pn : ℤ) (rest : List ℤ) (room r' : Room),
        run_single_prisoner_instance strat room pn = .ok (false, r') →
        run_strategy_aux strat (pn :: rest) room = .ok (false, r')) := by
  constructor
  · intro strat room r' h
    exact run_strategy_aux_true_closed strat
      ((List.range' 1 100).map (fun n : ℕ => (n : ℤ))) room r' (by simp) h
  · intro strat pn rest room r' h
    simp only [run_strategy_aux, h]

/-- Witness for C10: the echoing strategy completes a full episode on the
empty room, which ends fully resealed; the always-zero strategy fails at
prisoner 1 and the loop returns that room untouched. -/
theorem episode_room_state_witness :
    (run_single_strategy_instance echoStrategy (⟨[]⟩ : Room) = .ok (true, (⟨[]⟩ : Room)) ∧
      (⟨[]⟩ : Room).count_boxes_opened = 0)
    ∧ (run_single_prisoner_instance zeroStrategy (⟨[]⟩ : Room) 2 = .ok (false, (⟨[]⟩ : Room)) ∧
      run_strategy_aux zeroStrategy [2, 3] (⟨[]⟩ : Room) = .ok (false, (⟨[]⟩ : Room))) :=
  ⟨⟨rfl, episode_room_state.1 echoStrategy ⟨[]⟩ ⟨[]⟩ rfl⟩,
   ⟨rfl, episode_room_state.2 zeroStrategy 2 [3] ⟨[]⟩ ⟨[]⟩ rfl⟩⟩

/-! ### The Monte Carlo estimator (C4) -/

/-- A degenerate stream of fresh rooms (a concrete instance). -/
def emptyRooms : ℕ → Room :=
  fun _ => ⟨[]⟩

theorem mc_results_length (strat : Strategy) (rooms : ℕ → Room) :
    ∀ (k i : ℕ) (res : List Bool),
      mc_results strat rooms i k = .ok res → res.length = k := by
  intro k
  induction k with
  | zero =>
    intro i res h
    cases h
    rfl
  | succ k ih =>
    intro i res h
    cases hs : run_single_strategy_instance strat (rooms (i + 1)) with
    | error e =>
      simp only [mc_results, hs] at h
      cases h
    | ok br =>
      simp only [mc_results, hs] at h
      cases hm : mc_results strat rooms (i + 1) k with
      | error e =>
        rw [hm] at h
        cases h
      | ok rest =>
        rw [hm] at h
        have h' : (Except.ok (br.1 :: rest) : Except Err (List Bool)) = .ok res := h
        cases h'
        rw [List.length_cons, ih (i + 1) rest hm]

theorem mc_results_get (strat : Strategy) (rooms : ℕ → Room) :
    ∀ (k i : ℕ) (res : List Bool),
      mc_results strat rooms i k = .ok res →
      ∀ j, j < k → ∃ (b : Bool) (r' : Room),
        run_single_strategy_instance strat (rooms (i + j + 1)) = .ok (b, r')
          ∧ res[j]? = some b := by
  intro k
  induction k with
  | zero =>
    intro i res _ j hj
    exact absurd hj (Nat.not_lt_zero j)
  | succ k ih =>
    intro i res h j hj
    cases hs : run_single_strategy_instance strat (rooms (i + 1)) with
    | error e =>
      simp only [mc_results, hs] at h
      cases h
    | ok br =>
      simp only [mc_results, hs] at h
      cases hm : mc_results strat rooms (i + 1) k with
      | error e =>
        rw [hm] at h
        cases h
      | ok rest =>
        rw [hm] at h
        have h' : (Except.ok (br.1 :: rest) : Except Err (List Bool)) = .ok res := h
        cases h'
        cases j with
        | zero =>
          exact ⟨br.1, br.2, by simpa using hs, by simp⟩
        | succ j =>
          have hrec := ih (i + 1) rest hm j (by omega)
          obtain ⟨b, r', hb, hr⟩ := hrec
          refine ⟨b, r', ?_, by simpa using hr⟩
          have hidx : i + 1 + j + 1 = i + (j + 1) + 1 := by omega
          rw [hidx] at hb
          exact hb

/-- C4: for every positive `num_samples`, the Monte Carlo loop records
exactly `num_samples` episode outcomes, the `j`-th outcome coming from an
episode on the fresh room installed by the `j`-th `world.reset()`, and
`monte_carlo_test` returns the number of successful episodes divided by
`num_samples` — a rational that always lies in the interval [0, 1]. -/
theorem monte_carlo_spec :
    ∀ (strat : Strategy) (rooms : ℕ → Room) (n : ℕ) (res : List Bool),
      0 < n →
      monte_carlo_results strat rooms n = .ok res →
      res.length = n
      ∧ (∀ j, j < n → ∃ (b : Bool) (r' : Room),
          run_single_strategy_instance strat (rooms (j + 1)) = .ok (b, r')
            ∧ res[j]? = some b)
      ∧ monte_carlo_test strat rooms n = .ok ((res.count true : ℚ) / (n : ℚ))
      ∧ 0 ≤ ((res.count true : ℚ) / (n : ℚ))
      ∧ ((res.count true : ℚ) / (n : ℚ)) ≤ 1 := by
  intro strat rooms n res hn h
  have hlen := mc_results_length strat rooms n 0 res h
  have hnq : (0 : ℚ) < (n : ℚ) := by exact_mod_cast hn
  refine ⟨hlen, ?_, ?_, ?_, ?_⟩
  · intro j hj
    have hg := mc_results_get strat rooms n 0 res h j hj
    simpa using hg
  · unfold monte_carlo_test
    rw [show monte_carlo_results strat rooms n = .ok res from h]
    show Except.ok ((res.count true : ℚ) / (res.length : ℚ)) = _
    rw [hlen]
  · apply div_nonneg
    · exact_mod_cast Nat.zero_le _
    · exact le_of_lt hnq
  · rw [div_le_one hnq]
    have hcl : res.count true ≤ n := hlen ▸ List.count_le_length true res
    exact_mod_cast hcl

/-- Witness for C4: one sample with the always-zero strategy on the empty
room records the single failing episode and the estimate 0/1. -/
theorem monte_carlo_spec_witness :
    (0 < 1 ∧ monte_carlo_results zeroStrategy emptyRooms 1 = .ok [false])
    ∧ (([false] : List Bool).length = 1
      ∧ (∀ j, j < 1 → ∃ (b : Bool) (r' : Room),
          run_single_strategy_instance zeroStrategy (emptyRooms (j + 1)) = .ok (b, r')
            ∧ ([false] : List Bool)[j]? = some b)
      ∧ monte_carlo_test zeroStrategy emptyRooms 1
          = .ok ((([false] : List Bool).count true : ℚ) / ((1 : ℕ) : ℚ))
      ∧ 0 ≤ ((([false] : List Bool).count true : ℚ) / ((1 : ℕ) : ℚ))
      ∧ ((([false] : List Bool).count true : ℚ) / ((1 : ℕ) : ℚ)) ≤ 1) :=
  ⟨⟨Nat.one_pos, rfl⟩,
   monte_carlo_spec zeroStrategy emptyRooms 1 [false] Nat.one_pos rfl⟩
